import Mathlib

/-!
Verification of the `Vec4f` SIMD vector module (`src/vectorf128.rs`).

A lane of `Vec4f` is a 32-bit IEEE-754 binary32 value, embedded here as its
bit pattern (a `Nat` below `2^32`).  The SSE intrinsics used by the source
(`_mm_add_ps`, `_mm_mul_ps`, `_mm_div_ps`, `_mm_cmpeq_ps`, `_mm_movemask_ps`,
`_mm_setr_ps`, `_mm_set1_ps`, `_mm_and_ps`, loads and stores) are modelled
bit-exactly: arithmetic decodes the patterns to exact rational values,
computes the exact result and rounds to nearest, ties to even, with the
x86 treatment of NaN operands (first NaN operand propagated quieted,
invalid operations producing the indefinite QNaN `0xFFC00000`).
-/

set_option maxRecDepth 16000

/-- Exponent field (bits 23..30) of an f32 bit pattern. -/
def expF (x : Nat) : Nat := x / 2 ^ 23 % 256

/-- Fraction field (bits 0..22) of an f32 bit pattern. -/
def fracF (x : Nat) : Nat := x % 2 ^ 23

/-- Sign bit (bit 31) of an f32 bit pattern. -/
def signB (x : Nat) : Bool := x / 2 ^ 31 % 2 == 1

/-- The pattern denotes an IEEE NaN. -/
def isNaN (x : Nat) : Bool := expF x == 255 && fracF x != 0

/-- The pattern denotes an infinity. -/
def isInf (x : Nat) : Bool := expF x == 255 && fracF x == 0

/-- The pattern denotes a (positive or negative) zero. -/
def isZero (x : Nat) : Bool := x == 0 || x == 0x80000000

/-- Quiet a NaN the way x86 does: set the top fraction bit. -/
def quietNaN (x : Nat) : Nat := x ||| 0x400000

/-- The x86 indefinite QNaN produced by invalid operations. -/
def qnanIndef : Nat := 0xFFC00000

/-- Infinity pattern with the given sign. -/
def infWith (s : Bool) : Nat := if s then 0xFF800000 else 0x7F800000

/-- Zero pattern with the given sign. -/
def zeroWith (s : Bool) : Nat := if s then 0x80000000 else 0

/-- Integer significand of a finite pattern, in units of `2^(-149)`:
the denoted value is `(-1)^sign * sig149 x * 2^(-149)`. -/
def sig149 (x : Nat) : Nat :=
  if expF x = 0 then fracF x else (2 ^ 23 + fracF x) * 2 ^ (expF x - 1)

/-- Fuel-driven base-2 logarithm (so that it reduces by kernel computation). -/
def log2Aux : Nat → Nat → Nat
  | 0, _ => 0
  | f + 1, n => if n < 2 then 0 else log2Aux f (n / 2) + 1

/-- Base-2 logarithm used by the rounding routine; exact for `n < 2^1000`,
which covers every significand that arises from binary32 operations. -/
def nlog2 (n : Nat) : Nat := log2Aux 1000 n

/-- Decides `den * 2^e ≤ a` where `e` may be negative (both sides are scaled
by `2^2000`, which is exact for every exponent above `-2000`). -/
def pow2Le (den a : Nat) (e : Int) : Bool :=
  decide (den * 2 ^ (e + 2000).toNat ≤ a * 2 ^ 2000)

/-- Floor of the base-2 logarithm of the positive rational `a / den`. -/
def ratLog2 (a den : Nat) : Int :=
  let z : Int := (nlog2 a : Int) - (nlog2 den : Int)
  if pow2Le den a (z + 1) then z + 1 else if pow2Le den a z then z else z - 1

/-- Round the positive rational `a / den` to nearest, ties to even, returning
the integer significand `M` and the exponent `p` with result `M * 2^p`
(`2^23 ≤ M < 2^24` in the normal range, `M < 2^23` only with `p = -149`). -/
def roundRatCore (a den : Nat) : Nat × Int :=
  let e := ratLog2 a den
  let p : Int := max (e - 23) (-149)
  let num := a * 2 ^ (2000 - p).toNat
  let d := den * 2 ^ 2000
  let q := num / d
  let r := num % d
  let M := if 2 * r > d || (2 * r == d && q % 2 == 1) then q + 1 else q
  if M = 2 ^ 24 then (2 ^ 23, p + 1) else (M, p)

/-- Encode a rounded result `M * 2^p` with sign `s` as an f32 bit pattern,
overflowing to infinity. -/
def encodeF32 (s : Bool) (M : Nat) (p : Int) : Nat :=
  let sb := if s then 2 ^ 31 else 0
  if M < 2 ^ 23 then sb + M
  else if (255 : Int) ≤ p + 150 then sb + 0x7F800000
  else sb + (p + 150).toNat * 2 ^ 23 + (M - 2 ^ 23)

/-- Correctly rounded (nearest, ties to even) f32 pattern for the signed
positive rational `(-1)^s * a / den`. -/
def roundRat (s : Bool) (a den : Nat) : Nat :=
  encodeF32 s (roundRatCore a den).1 (roundRatCore a den).2

/-- IEEE-754 binary32 addition of bit patterns, as `_mm_add_ps` performs it
on each lane. -/
def fadd (x y : Nat) : Nat :=
  if isNaN x then quietNaN x
  else if isNaN y then quietNaN y
  else if isInf x then
    if isInf y && (signB x != signB y) then qnanIndef else x
  else if isInf y then y
  else
    let sx : Int := if signB x then -(sig149 x : Int) else (sig149 x : Int)
    let sy : Int := if signB y then -(sig149 y : Int) else (sig149 y : Int)
    let S := sx + sy
    if S = 0 then (if signB x && signB y then 0x80000000 else 0)
    else roundRat (decide (S < 0)) S.natAbs (2 ^ 149)

/-- IEEE-754 binary32 multiplication of bit patterns (`_mm_mul_ps` lanewise). -/
def fmul (x y : Nat) : Nat :=
  if isNaN x then quietNaN x
  else if isNaN y then quietNaN y
  else if isInf x then
    if isZero y then qnanIndef else infWith (signB x != signB y)
  else if isInf y then
    if isZero x then qnanIndef else infWith (signB x != signB y)
  else if isZero x || isZero y then zeroWith (signB x != signB y)
  else roundRat (signB x != signB y) (sig149 x * sig149 y) (2 ^ 149 * 2 ^ 149)

/-- IEEE-754 binary32 division of bit patterns (`_mm_div_ps` lanewise). -/
def fdiv (x y : Nat) : Nat :=
  if isNaN x then quietNaN x
  else if isNaN y then quietNaN y
  else if isInf x then
    if isInf y then qnanIndef else infWith (signB x != signB y)
  else if isInf y then zeroWith (signB x != signB y)
  else if isZero y then
    if isZero x then qnanIndef else infWith (signB x != signB y)
  else if isZero x then zeroWith (signB x != signB y)
  else roundRat (signB x != signB y) (sig149 x) (sig149 y)

/-- IEEE-754 floating-point equality of two patterns (`_mm_cmpeq_ps` on one
lane): NaN compares unequal to everything, `-0.0` equals `+0.0`. -/
def feq (x y : Nat) : Bool :=
  !isNaN x && !isNaN y && (x == y || (isZero x && isZero y))

/-! ## The `Vec4f` data type and its operations -/

/-- Packed array of four `f32` lanes (bit patterns), lane 0 first: the
`__m128` register wrapped by the Rust struct `Vec4f`. -/
structure Vec4f where
  x0 : Nat
  x1 : Nat
  x2 : Nat
  x3 : Nat
deriving DecidableEq, Repr

/-- Lane accessor: lane `i` of the register, lane 0 at the memory-low end. -/
def Vec4f.lane (v : Vec4f) : Fin 4 → Nat
  | 0 => v.x0
  | 1 => v.x1
  | 2 => v.x2
  | 3 => v.x3

/-- Lane accessor on a plain `Nat` index, the reinterpretation of the
register as four consecutive floats used by `get_unchecked`. -/
def Vec4f.laneN (v : Vec4f) : Nat → Nat
  | 0 => v.x0
  | 1 => v.x1
  | 2 => v.x2
  | _ => v.x3

/-- `Vec4f::new(a, b, c, d)`: `_mm_setr_ps` puts `a` in lane 0, ..., `d` in
lane 3. -/
def Vec4f.new (a b c d : Nat) : Vec4f := ⟨a, b, c, d⟩

/-- `Vec4f::from_scalar(value)`: `_mm_set1_ps` broadcasts to all lanes. -/
def Vec4f.fromScalar (value : Nat) : Vec4f := ⟨value, value, value, value⟩

/-- `Vec4f::default()`: `from_scalar(0.0)`. -/
def Vec4f.defaultV : Vec4f := Vec4f.fromScalar 0

/-- Lanewise combination of two vectors. -/
def Vec4f.map2 (f : Nat → Nat → Nat) (v w : Vec4f) : Vec4f :=
  ⟨f v.x0 w.x0, f v.x1 w.x1, f v.x2 w.x2, f v.x3 w.x3⟩

/-- `impl Add for Vec4f`: `_mm_add_ps`. -/
def Vec4f.vadd (v w : Vec4f) : Vec4f := Vec4f.map2 fadd v w

/-- `impl Mul for Vec4f`: `_mm_mul_ps`. -/
def Vec4f.vmul (v w : Vec4f) : Vec4f := Vec4f.map2 fmul v w

/-- `impl Div for Vec4f`: `_mm_div_ps`. -/
def Vec4f.vdiv (v w : Vec4f) : Vec4f := Vec4f.map2 fdiv v w

/-- `_mm_cmpeq_ps`: lanewise compare-equal producing an all-ones or all-zeros
32-bit mask per lane. -/
def Vec4f.cmpeqMask (v w : Vec4f) : Vec4f :=
  Vec4f.map2 (fun a b => if feq a b then 0xFFFFFFFF else 0) v w

/-- `_mm_movemask_ps`: gathers bit 31 of each lane into a 4-bit integer,
lane 0 at bit 0. -/
def Vec4f.movemask (v : Vec4f) : Nat :=
  v.x0 / 2 ^ 31 % 2 + 2 * (v.x1 / 2 ^ 31 % 2) + 4 * (v.x2 / 2 ^ 31 % 2)
    + 8 * (v.x3 / 2 ^ 31 % 2)

/-- `impl PartialEq for Vec4f`: compare-equal, movemask, then test for
`0x0F`. -/
def Vec4f.vecEq (v w : Vec4f) : Bool :=
  Vec4f.movemask (Vec4f.cmpeqMask v w) == 0x0F

/-- `Vec4f::get(index)`: `None` for `index > 3`, otherwise a reference to
lane `index`. -/
def Vec4f.get (v : Vec4f) (index : Nat) : Option Nat :=
  if index > 3 then none else some (v.laneN index)

/-- `Vec4f::load_partial(buffer)`: a `match` on the slice length; lengths
0..3 fill the leading lanes from the buffer and zero the tail
(`_mm_load_ss` / `_mm_setr_ps`); any longer buffer goes through
`Vec4f::load`, which reads exactly the first four elements. -/
def Vec4f.loadPart (_self : Vec4f) (buffer : List Nat) : Vec4f :=
  match buffer with
  | [] => Vec4f.defaultV
  | [a] => ⟨a, 0, 0, 0⟩
  | [a, b] => ⟨a, b, 0, 0⟩
  | [a, b, c] => ⟨a, b, c, 0⟩
  | a :: b :: c :: d :: _ => ⟨a, b, c, d⟩

/-- `Vec4f::cutoff(size)`: for `size ≥ 4` the value is returned unchanged;
otherwise `_mm_and_ps` with a mask read at offset `4 - size` of the constant
`[-1, -1, -1, -1, 0, 0, 0, 0]`, which keeps lanes below `size` and clears
the rest to `+0.0`. -/
def Vec4f.cutoff (v : Vec4f) (size : Nat) : Vec4f :=
  if size ≥ 4 then v
  else
    let maskl : List Nat := [0xFFFFFFFF, 0xFFFFFFFF, 0xFFFFFFFF, 0xFFFFFFFF, 0, 0, 0, 0]
    let m : Nat → Nat := fun i => maskl.getD (4 - size + i) 0
    ⟨v.x0 &&& m 0, v.x1 &&& m 1, v.x2 &&& m 2, v.x3 &&& m 3⟩

/-- `Vec4f::nan_vec()`: broadcast of `f32::from_bits(0x7FC00000 | (0x100 &
0x003FFFFF))`. -/
def Vec4f.nanVec : Vec4f :=
  Vec4f.fromScalar (0x7FC00000 ||| (0x100 &&& 0x003FFFFF))

/-- One iteration of the binary-exponentiation loop in `Vec4f::pow`,
driven by fuel so that it reduces by computation; with fuel at least
`log2 n + 1` the fuel never runs out (proved below). -/
def powLoopF : Nat → Vec4f → Vec4f → Nat → Vec4f
  | 0, answer, _, _ => answer
  | fuel + 1, answer, power, n =>
    let answer1 := if n % 2 > 0 then Vec4f.vmul answer power else answer
    if n / 2 = 0 then answer1
    else powLoopF fuel answer1 (Vec4f.vmul power power) (n / 2)

/-- The `loop` of `Vec4f::pow` for a non-negative exponent `n`, entered with
`answer` and `power`: fuel `n + 1` always suffices. -/
def powLoop (answer power : Vec4f) (n : Nat) : Vec4f :=
  powLoopF (n + 1) answer power n

/-- `i32::MIN`. -/
def i32Min : Int := -(2 ^ 31)

/-- `Vec4f::pow(n)`: negative exponents go through the reciprocal (with
`i32::MIN` returning `nan_vec()`), non-negative ones run the
binary-exponentiation loop starting from `broadcast(1.0)`. -/
def Vec4f.pow (v : Vec4f) (n : Int) : Vec4f :=
  if n < 0 then
    if n = i32Min then Vec4f.nanVec
    else Vec4f.vdiv (Vec4f.fromScalar 0x3F800000) (powLoop (Vec4f.fromScalar 0x3F800000) v (-n).toNat)
  else powLoop (Vec4f.fromScalar 0x3F800000) v n.toNat

/-! ## Buffers and the load/store family -/

/-- The two contract violations the load/store family panics on. -/
inductive VErr where
  | ShortBuffer
  | Misaligned
deriving DecidableEq, Repr

/-- A float slice: its starting address and its elements (bit patterns). -/
structure FBuf where
  addr : Nat
  data : List Nat
deriving DecidableEq, Repr

/-- `Vec4f::store(buffer)`: panics (`ShortBuffer`) when the slice holds fewer
than 4 elements, otherwise `_mm_storeu_ps` overwrites the first four
elements with lanes 0..3 and leaves the rest untouched. -/
def Vec4f.store (v : Vec4f) (buffer : FBuf) : Except VErr FBuf :=
  if buffer.data.length < 4 then .error .ShortBuffer
  else .ok ⟨buffer.addr, v.x0 :: v.x1 :: v.x2 :: v.x3 :: buffer.data.drop 4⟩

/-- `Vec4f::store_aligned(buffer)`: the length check of `store`, then a panic
(`Misaligned`) when the start address has any of its low four bits set,
then `_mm_store_ps`. -/
def Vec4f.storeAligned (v : Vec4f) (buffer : FBuf) : Except VErr FBuf :=
  if buffer.data.length < 4 then .error .ShortBuffer
  else if buffer.addr &&& 0xf > 0 then .error .Misaligned
  else .ok ⟨buffer.addr, v.x0 :: v.x1 :: v.x2 :: v.x3 :: buffer.data.drop 4⟩

/-- `Vec4f::store_aligned_nocache(buffer)`: same checks as `store_aligned`;
`_mm_stream_ps` writes the same values, only bypassing the cache. -/
def Vec4f.storeAlignedNocache (v : Vec4f) (buffer : FBuf) : Except VErr FBuf :=
  if buffer.data.length < 4 then .error .ShortBuffer
  else if buffer.addr &&& 0xf > 0 then .error .Misaligned
  else .ok ⟨buffer.addr, v.x0 :: v.x1 :: v.x2 :: v.x3 :: buffer.data.drop 4⟩

/-- `Vec4f::load(buffer)`: panics (`ShortBuffer`) below 4 elements, otherwise
`_mm_loadu_ps` replaces the register with the first four elements. -/
def Vec4f.load (_self : Vec4f) (buffer : FBuf) : Except VErr Vec4f :=
  if buffer.data.length < 4 then .error .ShortBuffer
  else .ok ⟨buffer.data.getD 0 0, buffer.data.getD 1 0, buffer.data.getD 2 0,
    buffer.data.getD 3 0⟩

/-- `Vec4f::load_aligned(buffer)`: length check, alignment check, then
`_mm_load_ps`. -/
def Vec4f.loadAligned (_self : Vec4f) (buffer : FBuf) : Except VErr Vec4f :=
  if buffer.data.length < 4 then .error .ShortBuffer
  else if buffer.addr &&& 0xf > 0 then .error .Misaligned
  else .ok ⟨buffer.data.getD 0 0, buffer.data.getD 1 0, buffer.data.getD 2 0,
    buffer.data.getD 3 0⟩

/-- `impl From<&[f32]> for Vec4f`: panics below 4 elements, otherwise an
unaligned load of the first four. -/
def Vec4f.fromSlice (value : List Nat) : Except VErr Vec4f :=
  if value.length < 4 then .error .ShortBuffer
  else .ok ⟨value.getD 0 0, value.getD 1 0, value.getD 2 0, value.getD 3 0⟩

/-- `impl PartialEq<[f32; 4]> for Vec4f`: load the four array elements into a
vector (the `From<&[f32]>` conversion, which cannot panic on a length-4
array) and compare with the vector equality. -/
def Vec4f.eqArray (v : Vec4f) (a b c d : Nat) : Bool :=
  match Vec4f.fromSlice [a, b, c, d] with
  | .ok w => Vec4f.vecEq v w
  | .error _ => false

/-- The array comparison as §4.6 of the spec words it: store `self` into a
four-element array and compare elementwise with floating-point `==`. -/
def Vec4f.specEqArray (v : Vec4f) (a b c d : Nat) : Bool :=
  feq v.x0 a && feq v.x1 b && feq v.x2 c && feq v.x3 d

/-! ## Basic lemmas about lanewise equality -/

theorem feq_self (x : Nat) : feq x x = (!isNaN x) := by
  unfold feq
  cases isNaN x <;> simp

theorem feq_nan_left (x y : Nat) (h : isNaN x = true) : feq x y = false := by
  unfold feq
  simp [h]

theorem feq_nan_right (x y : Nat) (h : isNaN y = true) : feq x y = false := by
  unfold feq
  simp [h]

theorem Vec4f.vecEq_eq (v w : Vec4f) :
    Vec4f.vecEq v w =
      (feq v.x0 w.x0 && feq v.x1 w.x1 && feq v.x2 w.x2 && feq v.x3 w.x3) := by
  unfold Vec4f.vecEq Vec4f.movemask Vec4f.cmpeqMask Vec4f.map2
  cases h0 : feq v.x0 w.x0 <;> cases h1 : feq v.x1 w.x1 <;>
    cases h2 : feq v.x2 w.x2 <;> cases h3 : feq v.x3 w.x3 <;>
      simp [h0, h1, h2, h3]

theorem Vec4f.vecEq_iff (v w : Vec4f) :
    Vec4f.vecEq v w = true ↔ ∀ i : Fin 4, feq (v.lane i) (w.lane i) = true := by
  rw [Vec4f.vecEq_eq]
  constructor
  · intro h i
    simp only [Bool.and_eq_true] at h
    fin_cases i <;> simp [Vec4f.lane, h.1.1.1, h.1.1.2, h.1.2, h.2]
  · intro h
    have h0 := h 0
    have h1 := h 1
    have h2 := h 2
    have h3 := h 3
    simp only [Vec4f.lane] at h0 h1 h2 h3
    simp [h0, h1, h2, h3]

theorem Vec4f.vecEq_self (v : Vec4f) :
    Vec4f.vecEq v v = (!isNaN v.x0 && !isNaN v.x1 && !isNaN v.x2 && !isNaN v.x3) := by
  rw [Vec4f.vecEq_eq, feq_self, feq_self, feq_self, feq_self]

/-! ## C1: vector equality is the lanewise IEEE compare reduced by movemask -/

/-- C1: `v == w` holds iff every lane pair is equal under IEEE floating-point
equality; any NaN lane forces inequality (so a vector with a NaN lane is not
equal to itself), `-0.0` equals `+0.0`, and the implementation is the
movemask-of-compare-equal test against `0x0F`. -/
theorem c1_vecEq_lanewise (v w : Vec4f) :
    (Vec4f.vecEq v w = true ↔ ∀ i : Fin 4, feq (v.lane i) (w.lane i) = true) ∧
    ((∃ i : Fin 4, isNaN (v.lane i) = true ∨ isNaN (w.lane i) = true) →
      Vec4f.vecEq v w = false) ∧
    feq 0x80000000 0x00000000 = true ∧
    Vec4f.vecEq v w = (Vec4f.movemask (Vec4f.cmpeqMask v w) == 0x0F) := by
  refine ⟨Vec4f.vecEq_iff v w, ?_, by decide, rfl⟩
  rintro ⟨i, hi⟩
  have hfeq : feq (v.lane i) (w.lane i) = false := by
    rcases hi with h | h
    · exact feq_nan_left _ _ h
    · exact feq_nan_right _ _ h
  cases hvw : Vec4f.vecEq v w
  · rfl
  · exact absurd ((Vec4f.vecEq_iff v w).mp hvw i) (by simp [hfeq])

/-- C1 instantiated concretely: a NaN lane breaks reflexivity, and signed
zeros compare equal. -/
theorem c1_witness :
    Vec4f.vecEq (Vec4f.new 0x7FC00000 0 0 0) (Vec4f.new 0x7FC00000 0 0 0) = false ∧
    Vec4f.vecEq (Vec4f.fromScalar 0x80000000) (Vec4f.fromScalar 0) = true := by
  constructor
  · exact (c1_vecEq_lanewise (Vec4f.new 0x7FC00000 0 0 0) (Vec4f.new 0x7FC00000 0 0 0)).2.1
      ⟨0, Or.inl (by decide)⟩
  · decide

/-! ## C3: load_partial fills from the front and zero-fills the tail -/

/-- C3: after `load_partial(buffer)` lane `i` holds `buffer[i]` when
`i < buffer.len()` and `+0.0` otherwise; in particular a buffer longer than
four elements loads exactly the first four lanes (the previous register
content never survives). -/
theorem c3_loadPart_lanes (v : Vec4f) (buffer : List Nat) (i : Fin 4) :
    (Vec4f.loadPart v buffer).lane i =
      if i.val < buffer.length then buffer.getD i.val 0 else 0 := by
  match buffer with
  | [] => fin_cases i <;> rfl
  | [a] => fin_cases i <;> rfl
  | [a, b] => fin_cases i <;> rfl
  | [a, b, c] => fin_cases i <;> rfl
  | a :: b :: c :: d :: rest =>
    fin_cases i <;> simp [Vec4f.loadPart, Vec4f.lane, List.getD]

/-! ## C9: array comparison refines the store-then-compare specification -/

/-- C9: comparing a vector with a four-element float array as implemented
(load the array with the `From<&[f32]>` conversion, then vector equality)
agrees with the specification (store the lanes and compare elementwise with
floating-point equality); both hold exactly when every lane equals the
corresponding array element under IEEE `==`. -/
theorem c9_eqArray_refines (v : Vec4f) (a b c d : Nat) :
    Vec4f.eqArray v a b c d = Vec4f.specEqArray v a b c d ∧
    (Vec4f.eqArray v a b c d = true ↔
      ∀ i : Fin 4, feq (v.lane i) ([a, b, c, d].getD i.val 0) = true) := by
  have himpl : Vec4f.eqArray v a b c d = Vec4f.vecEq v ⟨a, b, c, d⟩ := rfl
  constructor
  · rw [himpl, Vec4f.vecEq_eq]
    rfl
  · rw [himpl, Vec4f.vecEq_iff]
    constructor
    · intro h i
      have := h i
      fin_cases i <;> simpa [Vec4f.lane] using this
    · intro h i
      have := h i
      fin_cases i <;> simpa [Vec4f.lane] using this

/-! ## C5: the load/store family and its panic conditions -/

theorem and_fifteen_eq_mod (x : Nat) : x &&& 0xf = x % 16 := by
  have h := Nat.and_pow_two_sub_one_eq_mod x 4
  norm_num at h
  exact h

/-- C5: `store`, `store_aligned`, `store_aligned_nocache`, `load` and
`load_aligned` fail exactly when the buffer holds fewer than four elements
(`ShortBuffer`) or, for the aligned variants, additionally when the start
address is not a multiple of 16 (`Misaligned`, checked after the length);
on success the stores overwrite exactly the first four buffer elements with
lanes 0..3 (leaving address and tail untouched) and the loads read exactly
the first four buffer elements into lanes 0..3. -/
theorem c5_load_store_contracts (v : Vec4f) (b : FBuf) :
    (Vec4f.store v b = .error .ShortBuffer ↔ b.data.length < 4) ∧
    (4 ≤ b.data.length →
      Vec4f.store v b = .ok ⟨b.addr, v.x0 :: v.x1 :: v.x2 :: v.x3 :: b.data.drop 4⟩) ∧
    (Vec4f.storeAligned v b = .error .ShortBuffer ↔ b.data.length < 4) ∧
    (Vec4f.storeAligned v b = .error .Misaligned ↔
      4 ≤ b.data.length ∧ b.addr % 16 ≠ 0) ∧
    (4 ≤ b.data.length → b.addr % 16 = 0 →
      Vec4f.storeAligned v b = .ok ⟨b.addr, v.x0 :: v.x1 :: v.x2 :: v.x3 :: b.data.drop 4⟩) ∧
    Vec4f.storeAlignedNocache v b = Vec4f.storeAligned v b ∧
    (Vec4f.load v b = .error .ShortBuffer ↔ b.data.length < 4) ∧
    (4 ≤ b.data.length →
      Vec4f.load v b = .ok ⟨b.data.getD 0 0, b.data.getD 1 0, b.data.getD 2 0, b.data.getD 3 0⟩) ∧
    (Vec4f.loadAligned v b = .error .ShortBuffer ↔ b.data.length < 4) ∧
    (Vec4f.loadAligned v b = .error .Misaligned ↔
      4 ≤ b.data.length ∧ b.addr % 16 ≠ 0) ∧
    (4 ≤ b.data.length → b.addr % 16 = 0 →
      Vec4f.loadAligned v b =
        .ok ⟨b.data.getD 0 0, b.data.getD 1 0, b.data.getD 2 0, b.data.getD 3 0⟩) := by
  unfold Vec4f.store Vec4f.storeAligned Vec4f.storeAlignedNocache Vec4f.load Vec4f.loadAligned
  rw [and_fifteen_eq_mod]
  split_ifs with hlen halign
  all_goals simp_all
  all_goals omega

/-- C5 at a concrete buffer: a misaligned five-element buffer makes
`store_aligned` fail with `Misaligned` while plain `store` succeeds. -/
theorem c5_witness :
    Vec4f.storeAligned (Vec4f.new 1 2 3 4) ⟨8, [9, 9, 9, 9, 9]⟩ = .error .Misaligned ∧
    Vec4f.store (Vec4f.new 1 2 3 4) ⟨8, [9, 9, 9, 9, 9]⟩ = .ok ⟨8, [1, 2, 3, 4, 9]⟩ := by
  constructor
  · exact (c5_load_store_contracts (Vec4f.new 1 2 3 4) ⟨8, [9, 9, 9, 9, 9]⟩).2.2.2.1.mpr
      (by constructor <;> decide)
  · exact (c5_load_store_contracts (Vec4f.new 1 2 3 4) ⟨8, [9, 9, 9, 9, 9]⟩).2.1 (by decide)

/-! ## C6: the special cases of pow -/

/-- C6: `pow 0` is the broadcast of `1.0`; a negative exponent other than
`i32::MIN` is the reciprocal of the positive power; `pow i32::MIN` is a
broadcast of the canonical quiet NaN pattern `0x7FC00100` regardless of the
operand. -/
theorem c6_pow_specials (v : Vec4f) (n : Int) :
    Vec4f.pow v 0 = Vec4f.fromScalar 0x3F800000 ∧
    (n < 0 → n ≠ i32Min →
      Vec4f.pow v n = Vec4f.vdiv (Vec4f.fromScalar 0x3F800000) (Vec4f.pow v (-n))) ∧
    Vec4f.pow v i32Min = Vec4f.fromScalar 0x7FC00100 := by
  refine ⟨rfl, ?_, ?_⟩
  · intro hneg hne
    have hnn : ¬(-n < 0) := by omega
    unfold Vec4f.pow
    simp [hneg, hne, hnn]
  · unfold Vec4f.pow
    norm_num [i32Min]
    decide

/-- C6 applied at a concrete negative exponent. -/
theorem c6_witness :
    Vec4f.pow (Vec4f.fromScalar 0x40000000) (-3) =
      Vec4f.vdiv (Vec4f.fromScalar 0x3F800000) (Vec4f.pow (Vec4f.fromScalar 0x40000000) 3) := by
  have h := (c6_pow_specials (Vec4f.fromScalar 0x40000000) (-3)).2.1 (by decide)
    (by intro h; exact absurd h (by decide))
  simpa using h

/-! ## C10: termination of pow -/

theorem powLoopF_fuel_invariant :
    ∀ fuel1 fuel2 answer power n, Nat.log2 n + 1 ≤ fuel1 → Nat.log2 n + 1 ≤ fuel2 →
      powLoopF fuel1 answer power n = powLoopF fuel2 answer power n := by
  intro fuel1
  induction fuel1 with
  | zero => intro fuel2 answer power n h1 h2; omega
  | succ f ih =>
    intro fuel2 answer power n h1 h2
    cases fuel2 with
    | zero => omega
    | succ f2 =>
      show powLoopF (f + 1) answer power n = powLoopF (f2 + 1) answer power n
      unfold powLoopF
      by_cases hz : n / 2 = 0
      · simp [hz]
      · have hn2 : 2 ≤ n := by omega
        have hlog : Nat.log2 n = Nat.log2 (n / 2) + 1 := by
          rw [Nat.log2]
          simp [hn2]
        simp only [hz, if_false]
        exact ih f2 _ _ (n / 2) (by omega) (by omega)

/-- C10: the binary-exponentiation loop of `pow` terminates after at most
`log2 n + 1` iterations — any fuel of at least `log2 n + 1` computes the
loop result — and a negative exponent other than `i32::MIN` makes exactly
one recursive call, on the positive exponent, so `pow` is total. -/
theorem c10_pow_terminates (answer power v : Vec4f) (n : Nat) (m : Int) (fuel : Nat)
    (hfuel : Nat.log2 n + 1 ≤ fuel) (hm : m < 0) (hmin : m ≠ i32Min) :
    powLoopF fuel answer power n = powLoop answer power n ∧
    Vec4f.pow v m =
      Vec4f.vdiv (Vec4f.fromScalar 0x3F800000)
        (powLoop (Vec4f.fromScalar 0x3F800000) v (-m).toNat) := by
  constructor
  · exact powLoopF_fuel_invariant fuel (n + 1) answer power n hfuel
      (by have := Nat.log2_le_self n; omega)
  · unfold Vec4f.pow
    simp [hm, hmin]

/-- C10 applied concretely: fuel `log2 13 + 1 = 4` already computes
`pow 13`, and `pow (-5)` reduces to one reciprocal of the loop. -/
theorem c10_witness :
    powLoopF 4 (Vec4f.fromScalar 0x3F800000) (Vec4f.fromScalar 0x40000000) 13 =
      powLoop (Vec4f.fromScalar 0x3F800000) (Vec4f.fromScalar 0x40000000) 13 ∧
    Vec4f.pow (Vec4f.fromScalar 0x40000000) (-5) =
      Vec4f.vdiv (Vec4f.fromScalar 0x3F800000)
        (powLoop (Vec4f.fromScalar 0x3F800000) (Vec4f.fromScalar 0x40000000) 5) := by
  have hlog : Nat.log2 13 + 1 ≤ 4 := by
    have h13 : Nat.log2 13 < 4 := (Nat.log2_lt (by decide)).mpr (by decide)
    omega
  have h := c10_pow_terminates (Vec4f.fromScalar 0x3F800000) (Vec4f.fromScalar 0x40000000)
    (Vec4f.fromScalar 0x40000000) 13 (-5) 4 hlog (by decide)
    (by intro h; exact absurd h (by decide))
  exact ⟨h.1, by simpa using h.2⟩

/-! ## C4: cutoff preserves the head bit-for-bit and zeroes the tail -/

theorem and_mask32_eq (x : Nat) (h : x < 2 ^ 32) : x &&& 0xFFFFFFFF = x := by
  have h32 := Nat.and_pow_two_sub_one_of_lt_two_pow (n := 32) h
  norm_num at h32
  exact h32

/-- C4: for `n ≥ 4`, `cutoff n` returns the vector unchanged (bit-for-bit);
for `n < 4` the lanes below `n` are preserved bit-for-bit and the lanes from
`n` on are exactly `+0.0` (pattern `0x00000000`), whatever they held before
(including `-0.0` and NaN patterns). -/
theorem c4_cutoff (v : Vec4f) (n : Nat)
    (h0 : v.x0 < 2 ^ 32) (h1 : v.x1 < 2 ^ 32) (h2 : v.x2 < 2 ^ 32) (h3 : v.x3 < 2 ^ 32) :
    (4 ≤ n → Vec4f.cutoff v n = v) ∧
    (n < 4 → ∀ i : Fin 4,
      (Vec4f.cutoff v n).lane i = if i.val < n then v.lane i else 0) := by
  constructor
  · intro h
    unfold Vec4f.cutoff
    simp [h]
  · intro hn i
    have e0 := and_mask32_eq v.x0 h0
    have e1 := and_mask32_eq v.x1 h1
    have e2 := and_mask32_eq v.x2 h2
    have e3 := and_mask32_eq v.x3 h3
    interval_cases n <;> fin_cases i <;>
      simp [Vec4f.cutoff, Vec4f.lane, List.getD, e0, e1, e2, e3]

/-- C4 applied concretely: cutting a vector with a NaN and a negative-zero
tail to two lanes zeroes those lanes exactly. -/
theorem c4_witness :
    (4 ≤ 7 → Vec4f.cutoff (Vec4f.new 1 2 0x7FC00000 0x80000000) 7 =
      Vec4f.new 1 2 0x7FC00000 0x80000000) ∧
    ((2 : Nat) < 4 → ∀ i : Fin 4,
      (Vec4f.cutoff (Vec4f.new 1 2 0x7FC00000 0x80000000) 2).lane i =
        if i.val < 2 then (Vec4f.new 1 2 0x7FC00000 0x80000000).lane i else 0) := by
  exact ⟨fun h => (c4_cutoff (Vec4f.new 1 2 0x7FC00000 0x80000000) 7
      (by decide) (by decide) (by decide) (by decide)).1 h,
    fun h => (c4_cutoff (Vec4f.new 1 2 0x7FC00000 0x80000000) 2
      (by decide) (by decide) (by decide) (by decide)).2 h⟩

/-! ## C2: the ordered constructor and get -/

/-- C2 counterexample: with a NaN first argument, `new(a,..).get(0)` returns
exactly the NaN pattern, and that value does not equal `a` under
floating-point `==` — so the claim as stated fails for NaN inputs. -/
theorem c2_counterexample :
    (Vec4f.new 0x7FC00000 0 0 0).get 0 = some 0x7FC00000 ∧
    feq 0x7FC00000 0x7FC00000 = false := by
  decide

/-- C2 as amended: `new(a,b,c,d)` places the four arguments in lanes 0..3
bit-for-bit, `get(i)` returns exactly that stored pattern for `i < 4`, and
the stored lane equals the argument under floating-point `==` whenever the
argument is not a NaN. -/
theorem c2_new_get (a b c d : Nat) :
    (∀ i : Fin 4, (Vec4f.new a b c d).lane i = [a, b, c, d].getD i.val 0) ∧
    (∀ i : Fin 4, (Vec4f.new a b c d).get i.val = some ([a, b, c, d].getD i.val 0)) ∧
    (∀ i : Fin 4, isNaN ([a, b, c, d].getD i.val 0) = false →
      feq ((Vec4f.new a b c d).laneN i.val) ([a, b, c, d].getD i.val 0) = true) := by
  refine ⟨?_, ?_, ?_⟩
  · intro i
    fin_cases i <;> rfl
  · intro i
    fin_cases i <;> rfl
  · intro i h
    fin_cases i <;> simp_all [Vec4f.laneN, Vec4f.new, List.getD, feq_self]

/-- C2 applied at a non-NaN input. -/
theorem c2_witness :
    isNaN ([5, 6, 7, 8].getD 0 0 : Nat) = false ∧
    feq ((Vec4f.new 5 6 7 8).laneN 0) ([5, 6, 7, 8].getD 0 0) = true :=
  ⟨by decide, (c2_new_get 5 6 7 8).2.2 0 (by decide)⟩

/-! ## C8: broadcast distributes over addition only away from NaN results -/

/-- C8 counterexample: with `x = +∞` and `y = -∞` the sum is a NaN in every
lane, and a NaN lane is unequal to itself, so
`from_scalar(x) + from_scalar(y) == from_scalar(x + y)` is false. -/
theorem c8_counterexample :
    Vec4f.vecEq (Vec4f.vadd (Vec4f.fromScalar 0x7F800000) (Vec4f.fromScalar 0xFF800000))
      (Vec4f.fromScalar (fadd 0x7F800000 0xFF800000)) = false := by
  decide

/-- C8 as amended: whenever `x + y` is not a NaN (which excludes NaN operands
and infinities of opposite sign), broadcasting commutes with addition under
the vector equality. -/
theorem c8_broadcast_add (x y : Nat) (h : isNaN (fadd x y) = false) :
    Vec4f.vecEq (Vec4f.vadd (Vec4f.fromScalar x) (Vec4f.fromScalar y))
      (Vec4f.fromScalar (fadd x y)) = true := by
  have hv : Vec4f.vadd (Vec4f.fromScalar x) (Vec4f.fromScalar y) =
      Vec4f.fromScalar (fadd x y) := rfl
  rw [hv, Vec4f.vecEq_eq]
  simp [Vec4f.fromScalar, feq_self, h]

/-- C8 applied at `1.0 + 2.0`. -/
theorem c8_witness :
    isNaN (fadd 0x3F800000 0x40000000) = false ∧
    Vec4f.vecEq (Vec4f.vadd (Vec4f.fromScalar 0x3F800000) (Vec4f.fromScalar 0x40000000))
      (Vec4f.fromScalar (fadd 0x3F800000 0x40000000)) = true :=
  ⟨by decide, c8_broadcast_add 0x3F800000 0x40000000 (by decide)⟩

/-! ## Correctness of the rounding helper on exact inputs -/

theorem log2_eq_of (t L : Nat) (h1 : 2 ^ L ≤ t) (h2 : t < 2 ^ (L + 1)) :
    Nat.log2 t = L := by
  have ht : t ≠ 0 := by
    have : 0 < 2 ^ L := Nat.pos_pow_of_pos L (by norm_num)
    omega
  have ha := (Nat.le_log2 ht).mpr h1
  have hb := (Nat.log2_lt ht).mpr h2
  omega

theorem log2_half (n : Nat) (h : 2 ≤ n) : Nat.log2 n = Nat.log2 (n / 2) + 1 := by
  have hhalf : n / 2 ≠ 0 := by omega
  have h1 := Nat.log2_self_le hhalf
  have h2 := Nat.lt_log2_self (n := n / 2)
  apply log2_eq_of
  · have : 2 ^ Nat.log2 (n / 2) * 2 ≤ (n / 2) * 2 := Nat.mul_le_mul_right 2 h1
    calc 2 ^ (Nat.log2 (n / 2) + 1) = 2 ^ Nat.log2 (n / 2) * 2 := by ring
    _ ≤ (n / 2) * 2 := this
    _ ≤ n := by omega
  · have hp : (2:Nat) ^ (Nat.log2 (n / 2) + 1 + 1) = 2 ^ (Nat.log2 (n / 2) + 1) * 2 := by ring
    rw [hp]
    omega

theorem log2Aux_eq : ∀ (f n : Nat), n < 2 ^ f → log2Aux f n = Nat.log2 n := by
  intro f
  induction f with
  | zero =>
    intro n hn
    have hn0 : n = 0 := by simp at hn; omega
    subst hn0
    show 0 = Nat.log2 0
    rw [Nat.log2]
    norm_num
  | succ f ih =>
    intro n hn
    show (if n < 2 then 0 else log2Aux f (n / 2) + 1) = Nat.log2 n
    by_cases h2 : n < 2
    · rw [if_pos h2]
      symm
      rw [Nat.log2]
      simp [show ¬ 2 ≤ n by omega]
    · rw [if_neg h2]
      have hstep : n / 2 < 2 ^ f := by
        rw [pow_succ] at hn
        omega
      rw [ih (n / 2) hstep, ← log2_half n (by omega)]

theorem nlog2_eq (n : Nat) (h : n < 2 ^ 1000) : nlog2 n = Nat.log2 n :=
  log2Aux_eq 1000 n h

theorem pow2Le_mono (den a : Nat) (e1 e2 : Int) (h : e1 ≤ e2)
    (h2 : pow2Le den a e2 = true) : pow2Le den a e1 = true := by
  unfold pow2Le at h2 ⊢
  simp only [decide_eq_true_eq] at h2 ⊢
  calc den * 2 ^ (e1 + 2000).toNat
      ≤ den * 2 ^ (e2 + 2000).toNat :=
        Nat.mul_le_mul_left _ (Nat.pow_le_pow_right (by norm_num)
          (Int.toNat_le_toNat (by omega)))
  _ ≤ a * 2 ^ 2000 := h2

theorem ratLog2_eq_of (a den : Nat) (e : Int) (ha : 0 < a) (hden : 0 < den)
    (ha2 : a < 2 ^ 1000) (hd2 : den < 2 ^ 1000)
    (hlow : pow2Le den a e = true) (hhigh : pow2Le den a (e + 1) = false) :
    ratLog2 a den = e := by
  have hna : nlog2 a = Nat.log2 a := nlog2_eq a ha2
  have hnd : nlog2 den = Nat.log2 den := nlog2_eq den hd2
  have haL : 2 ^ Nat.log2 a ≤ a := Nat.log2_self_le (by omega)
  have haU : a < 2 ^ (Nat.log2 a + 1) := Nat.lt_log2_self
  have hdL : 2 ^ Nat.log2 den ≤ den := Nat.log2_self_le (by omega)
  have hdU : den < 2 ^ (Nat.log2 den + 1) := Nat.lt_log2_self
  have hLa : Nat.log2 a < 1000 := by
    have := (Nat.le_log2 (by omega : a ≠ 0)).mp (le_refl _)
    by_contra hc
    push_neg at hc
    have : (2:Nat) ^ 1000 ≤ 2 ^ Nat.log2 a := Nat.pow_le_pow_right (by norm_num) hc
    omega
  have hLd : Nat.log2 den < 1000 := by
    by_contra hc
    push_neg at hc
    have : (2:Nat) ^ 1000 ≤ 2 ^ Nat.log2 den := Nat.pow_le_pow_right (by norm_num) hc
    omega
  set La := Nat.log2 a with hLadef
  set Ld := Nat.log2 den with hLddef
  have hzdef : ratLog2 a den =
      (if pow2Le den a ((La : Int) - Ld + 1) then (La : Int) - Ld + 1
        else if pow2Le den a ((La : Int) - Ld) then (La : Int) - Ld
        else (La : Int) - Ld - 1) := by
    unfold ratLog2
    rw [hna, hnd]
  -- the quotient a / den lies in [2^(z-1), 2^(z+2)) for z = La - Ld
  have hfalse2 : pow2Le den a ((La : Int) - Ld + 2) = false := by
    unfold pow2Le
    simp only [decide_eq_false_iff_not, not_le]
    have ht : ((La : Int) - Ld + 2 + 2000).toNat = La + 2002 - Ld := by omega
    rw [ht]
    calc a * 2 ^ 2000 < 2 ^ (La + 1) * 2 ^ 2000 :=
          (Nat.mul_lt_mul_right (Nat.pos_pow_of_pos _ (by norm_num))).mpr haU
    _ = 2 ^ (La + 2001) := by rw [← pow_add]
    _ < 2 ^ Ld * 2 ^ (La + 2002 - Ld) := by
          rw [← pow_add]
          exact Nat.pow_lt_pow_right (by norm_num) (by omega)
    _ ≤ den * 2 ^ (La + 2002 - Ld) :=
          Nat.mul_le_mul_right _ hdL
  have htruem1 : pow2Le den a ((La : Int) - Ld - 1) = true := by
    unfold pow2Le
    simp only [decide_eq_true_eq]
    have ht : ((La : Int) - Ld - 1 + 2000).toNat = La + 1999 - Ld := by omega
    rw [ht]
    calc den * 2 ^ (La + 1999 - Ld)
        ≤ 2 ^ (Ld + 1) * 2 ^ (La + 1999 - Ld) :=
          Nat.mul_le_mul_right _ (by omega)
    _ = 2 ^ (Ld + 1 + (La + 1999 - Ld)) := by rw [← pow_add]
    _ ≤ 2 ^ (La + 2000) := Nat.pow_le_pow_right (by norm_num) (by omega)
    _ = 2 ^ La * 2 ^ 2000 := by rw [← pow_add]
    _ ≤ a * 2 ^ 2000 := Nat.mul_le_mul_right _ haL
  have hle : ∀ x : Int, pow2Le den a x = true → x ≤ e := by
    intro x hx
    by_contra hgt
    push_neg at hgt
    have := pow2Le_mono den a (e + 1) x (by omega) hx
    rw [hhigh] at this
    exact absurd this (by simp)
  have hge : ∀ x : Int, pow2Le den a x = false → e < x := by
    intro x hx
    by_contra hgt
    push_neg at hgt
    have := pow2Le_mono den a x e hgt hlow
    rw [hx] at this
    exact absurd this (by simp)
  rw [hzdef]
  split_ifs with h1 h2
  · have hup := hle _ h1
    have hdn := hge _ hfalse2
    omega
  · have hup := hle _ h2
    have hdn := hge _ (by simpa using h1)
    omega
  · have hup := hle _ htruem1
    have hdn := hge _ (by simpa using h2)
    omega

theorem roundRatCore_exact (a den M : Nat) (p : Int)
    (hp : max (ratLog2 a den - 23) (-149) = p)
    (hnum : a * 2 ^ ((2000 : Int) - p).toNat = M * (den * 2 ^ 2000))
    (hM : M ≠ 2 ^ 24) (hdpos : 0 < den) :
    roundRatCore a den = (M, p) := by
  have hDpos : 0 < den * 2 ^ 2000 := by positivity
  have hdne : den ≠ 0 := by omega
  simp only [roundRatCore, hp, hnum]
  rw [Nat.mul_div_cancel _ hDpos, Nat.mul_mod_left]
  have hc1 : ¬ (2 * 0 > den * 2 ^ 2000) := by omega
  have hc2 : (2 * 0 == den * 2 ^ 2000) = false := by
    simp
    omega
  simp [hc1, hc2, hdne]
  norm_num at hM
  simp [hM]

theorem roundRat_exact_normal (s : Bool) (M k j : Nat)
    (h1 : 2 ^ 23 ≤ M) (h2 : M < 2 ^ 24) (hk : k ≤ 600) (hj : j ≤ 600)
    (hlo : j ≤ k + 149) (hhi : k < j + 105) :
    roundRat s (M * 2 ^ k) (2 ^ j) =
      (if s then 2 ^ 31 else 0) + (k + 150 - j) * 2 ^ 23 + (M - 2 ^ 23) := by
  have hapos : 0 < M * 2 ^ k := by positivity
  have hdpos : (0 : Nat) < 2 ^ j := by positivity
  have ha2 : M * 2 ^ k < 2 ^ 1000 := by
    calc M * 2 ^ k < 2 ^ 24 * 2 ^ k := (Nat.mul_lt_mul_right (by positivity)).mpr h2
    _ = 2 ^ (24 + k) := by rw [← pow_add]
    _ ≤ 2 ^ 1000 := Nat.pow_le_pow_right (by norm_num) (by omega)
  have hd2 : (2 : Nat) ^ j < 2 ^ 1000 :=
    Nat.pow_lt_pow_right (by norm_num) (by omega)
  have hrat : ratLog2 (M * 2 ^ k) (2 ^ j) = (23 : Int) + k - j := by
    apply ratLog2_eq_of _ _ _ hapos hdpos ha2 hd2
    · unfold pow2Le
      simp only [decide_eq_true_eq]
      have ht : ((23 : Int) + k - j + 2000).toNat = 2023 + k - j := by omega
      rw [ht]
      calc 2 ^ j * 2 ^ (2023 + k - j) = 2 ^ (j + (2023 + k - j)) := by rw [← pow_add]
      _ = 2 ^ (23 + (k + 2000)) := by congr 1; omega
      _ = 2 ^ 23 * 2 ^ (k + 2000) := by rw [← pow_add]
      _ ≤ M * 2 ^ (k + 2000) := Nat.mul_le_mul_right _ h1
      _ = M * 2 ^ k * 2 ^ 2000 := by rw [mul_assoc, ← pow_add]
    · unfold pow2Le
      simp only [decide_eq_false_iff_not, not_le]
      have ht : ((23 : Int) + k - j + 1 + 2000).toNat = 2024 + k - j := by omega
      rw [ht]
      calc M * 2 ^ k * 2 ^ 2000 = M * 2 ^ (k + 2000) := by rw [mul_assoc, ← pow_add]
      _ < 2 ^ 24 * 2 ^ (k + 2000) := (Nat.mul_lt_mul_right (by positivity)).mpr h2
      _ = 2 ^ (j + (2024 + k - j)) := by rw [← pow_add]; congr 1; omega
      _ = 2 ^ j * 2 ^ (2024 + k - j) := by rw [← pow_add]
  have hp : max (ratLog2 (M * 2 ^ k) (2 ^ j) - 23) (-149) = (k : Int) - j := by
    rw [hrat]
    omega
  have hnum : M * 2 ^ k * 2 ^ ((2000 : Int) - ((k : Int) - j)).toNat =
      M * (2 ^ j * 2 ^ 2000) := by
    have ht : ((2000 : Int) - ((k : Int) - j)).toNat = 2000 + j - k := by omega
    rw [ht]
    calc M * 2 ^ k * 2 ^ (2000 + j - k) = M * 2 ^ (k + (2000 + j - k)) := by
          rw [mul_assoc, ← pow_add]
    _ = M * 2 ^ (j + 2000) := by congr 2; omega
    _ = M * (2 ^ j * 2 ^ 2000) := by rw [pow_add]
  have hcore := roundRatCore_exact (M * 2 ^ k) (2 ^ j) M ((k : Int) - j) hp hnum
    (by omega) hdpos
  unfold roundRat
  rw [hcore]
  unfold encodeF32
  simp only
  rw [if_neg (by omega : ¬ M < 2 ^ 23), if_neg (by omega : ¬ (255 : Int) ≤ (k : Int) - j + 150)]
  have hE : ((k : Int) - j + 150).toNat = k + 150 - j := by omega
  rw [hE]

theorem roundRat_exact_subnormal (s : Bool) (M k : Nat)
    (h1 : 0 < M) (h2 : M < 2 ^ 23) (hk : k ≤ 600) :
    roundRat s (M * 2 ^ k) (2 ^ (k + 149)) = (if s then 2 ^ 31 else 0) + M := by
  have hapos : 0 < M * 2 ^ k := by positivity
  have hdpos : (0 : Nat) < 2 ^ (k + 149) := by positivity
  have hL1 : 2 ^ Nat.log2 M ≤ M := Nat.log2_self_le (by omega)
  have hL2 : M < 2 ^ (Nat.log2 M + 1) := Nat.lt_log2_self
  have hL22 : Nat.log2 M < 23 := by
    have := (Nat.log2_lt (by omega : M ≠ 0)).mpr h2
    omega
  set L := Nat.log2 M with hLdef
  have ha2 : M * 2 ^ k < 2 ^ 1000 := by
    calc M * 2 ^ k < 2 ^ 23 * 2 ^ k := (Nat.mul_lt_mul_right (by positivity)).mpr h2
    _ = 2 ^ (23 + k) := by rw [← pow_add]
    _ ≤ 2 ^ 1000 := Nat.pow_le_pow_right (by norm_num) (by omega)
  have hd2 : (2 : Nat) ^ (k + 149) < 2 ^ 1000 :=
    Nat.pow_lt_pow_right (by norm_num) (by omega)
  have hrat : ratLog2 (M * 2 ^ k) (2 ^ (k + 149)) = (L : Int) - 149 := by
    apply ratLog2_eq_of _ _ _ hapos hdpos ha2 hd2
    · unfold pow2Le
      simp only [decide_eq_true_eq]
      have ht : ((L : Int) - 149 + 2000).toNat = L + 1851 := by omega
      rw [ht]
      calc 2 ^ (k + 149) * 2 ^ (L + 1851) = 2 ^ (L + (k + 2000)) := by
            rw [← pow_add]; congr 1; omega
      _ = 2 ^ L * 2 ^ (k + 2000) := by rw [← pow_add]
      _ ≤ M * 2 ^ (k + 2000) := Nat.mul_le_mul_right _ hL1
      _ = M * 2 ^ k * 2 ^ 2000 := by rw [mul_assoc, ← pow_add]
    · unfold pow2Le
      simp only [decide_eq_false_iff_not, not_le]
      have ht : ((L : Int) - 149 + 1 + 2000).toNat = L + 1852 := by omega
      rw [ht]
      calc M * 2 ^ k * 2 ^ 2000 = M * 2 ^ (k + 2000) := by rw [mul_assoc, ← pow_add]
      _ < 2 ^ (L + 1) * 2 ^ (k + 2000) := (Nat.mul_lt_mul_right (by positivity)).mpr hL2
      _ = 2 ^ (k + 149 + (L + 1852)) := by rw [← pow_add]; congr 1; omega
      _ = 2 ^ (k + 149) * 2 ^ (L + 1852) := by rw [← pow_add]
  have hp : max (ratLog2 (M * 2 ^ k) (2 ^ (k + 149)) - 23) (-149) = (-149 : Int) := by
    rw [hrat]
    omega
  have hnum : M * 2 ^ k * 2 ^ ((2000 : Int) - (-149 : Int)).toNat =
      M * (2 ^ (k + 149) * 2 ^ 2000) := by
    have ht : ((2000 : Int) - (-149 : Int)).toNat = 2149 := by omega
    rw [ht]
    calc M * 2 ^ k * 2 ^ 2149 = M * 2 ^ (k + 2149) := by rw [mul_assoc, ← pow_add]
    _ = M * 2 ^ (k + 149 + 2000) := by rw [show k + 2149 = k + 149 + 2000 from by omega]
    _ = M * (2 ^ (k + 149) * 2 ^ 2000) := by rw [pow_add]
  have hcore := roundRatCore_exact (M * 2 ^ k) (2 ^ (k + 149)) M (-149) hp hnum
    (by omega) hdpos
  unfold roundRat
  rw [hcore]
  unfold encodeF32
  simp only
  rw [if_pos h2]

theorem ratLog2_spec (a den : Nat) (ha : 0 < a) (hden : 0 < den)
    (ha2 : a < 2 ^ 1000) (hd2 : den < 2 ^ 1000) :
    pow2Le den a (ratLog2 a den) = true ∧ pow2Le den a (ratLog2 a den + 1) = false ∧
      -1001 ≤ ratLog2 a den ∧ ratLog2 a den ≤ 1000 := by
  have hna : nlog2 a = Nat.log2 a := nlog2_eq a ha2
  have hnd : nlog2 den = Nat.log2 den := nlog2_eq den hd2
  have haL : 2 ^ Nat.log2 a ≤ a := Nat.log2_self_le (by omega)
  have haU : a < 2 ^ (Nat.log2 a + 1) := Nat.lt_log2_self
  have hdL : 2 ^ Nat.log2 den ≤ den := Nat.log2_self_le (by omega)
  have hdU : den < 2 ^ (Nat.log2 den + 1) := Nat.lt_log2_self
  have hLa : Nat.log2 a < 1000 := by
    by_contra hc
    push_neg at hc
    have : (2 : Nat) ^ 1000 ≤ 2 ^ Nat.log2 a := Nat.pow_le_pow_right (by norm_num) hc
    omega
  have hLd : Nat.log2 den < 1000 := by
    by_contra hc
    push_neg at hc
    have : (2 : Nat) ^ 1000 ≤ 2 ^ Nat.log2 den := Nat.pow_le_pow_right (by norm_num) hc
    omega
  set La := Nat.log2 a with hLadef
  set Ld := Nat.log2 den with hLddef
  have hzdef : ratLog2 a den =
      (if pow2Le den a ((La : Int) - Ld + 1) then (La : Int) - Ld + 1
        else if pow2Le den a ((La : Int) - Ld) then (La : Int) - Ld
        else (La : Int) - Ld - 1) := by
    unfold ratLog2
    rw [hna, hnd]
  have hfalse2 : pow2Le den a ((La : Int) - Ld + 2) = false := by
    unfold pow2Le
    simp only [decide_eq_false_iff_not, not_le]
    have ht : ((La : Int) - Ld + 2 + 2000).toNat = La + 2002 - Ld := by omega
    rw [ht]
    calc a * 2 ^ 2000 < 2 ^ (La + 1) * 2 ^ 2000 :=
          (Nat.mul_lt_mul_right (Nat.pos_pow_of_pos _ (by norm_num))).mpr haU
    _ = 2 ^ (La + 2001) := by rw [← pow_add]
    _ < 2 ^ Ld * 2 ^ (La + 2002 - Ld) := by
          rw [← pow_add]
          exact Nat.pow_lt_pow_right (by norm_num) (by omega)
    _ ≤ den * 2 ^ (La + 2002 - Ld) :=
          Nat.mul_le_mul_right _ hdL
  have htruem1 : pow2Le den a ((La : Int) - Ld - 1) = true := by
    unfold pow2Le
    simp only [decide_eq_true_eq]
    have ht : ((La : Int) - Ld - 1 + 2000).toNat = La + 1999 - Ld := by omega
    rw [ht]
    calc den * 2 ^ (La + 1999 - Ld)
        ≤ 2 ^ (Ld + 1) * 2 ^ (La + 1999 - Ld) :=
          Nat.mul_le_mul_right _ (by omega)
    _ = 2 ^ (Ld + 1 + (La + 1999 - Ld)) := by rw [← pow_add]
    _ ≤ 2 ^ (La + 2000) := Nat.pow_le_pow_right (by norm_num) (by omega)
    _ = 2 ^ La * 2 ^ 2000 := by rw [← pow_add]
    _ ≤ a * 2 ^ 2000 := Nat.mul_le_mul_right _ haL
  rw [hzdef]
  split_ifs with h1 h2
  · refine ⟨h1, ?_, by omega, by omega⟩
    rw [show (La : Int) - Ld + 1 + 1 = (La : Int) - Ld + 2 from by ring]
    exact hfalse2
  · refine ⟨h2, by simpa using h1, by omega, by omega⟩
  · refine ⟨htruem1, ?_, by omega, by omega⟩
    rw [show (La : Int) - Ld - 1 + 1 = (La : Int) - Ld from by ring]
    simpa using h2

theorem encode_pattern_shape (s : Bool) (E m : Nat) (hE2 : E ≤ 254) (hm : m < 2 ^ 23) :
    isNaN ((if s then 2 ^ 31 else 0) + E * 2 ^ 23 + m) = false ∧
      (if s then 2 ^ 31 else 0) + E * 2 ^ 23 + m < 2 ^ 32 := by
  have hdiv : ((if s then 2 ^ 31 else 0) + E * 2 ^ 23 + m) / 2 ^ 23 % 256 = E := by
    cases s <;> simp <;> omega
  constructor
  · unfold isNaN expF fracF
    rw [hdiv]
    simp
    intro hc
    omega
  · cases s <;> simp <;> omega

theorem roundRatCore_p_range (a den : Nat) :
    (-149 ≤ (roundRatCore a den).2 ∧
      (roundRatCore a den).2 ≤ max (ratLog2 a den - 23) (-149) + 1) := by
  simp only [roundRatCore]
  split_ifs <;> constructor <;> simp <;> omega

theorem roundRatCore_M_lt (a den : Nat)
    (hq : a * 2 ^ ((2000 : Int) - max (ratLog2 a den - 23) (-149)).toNat /
      (den * 2 ^ 2000) < 2 ^ 24) :
    (roundRatCore a den).1 < 2 ^ 24 := by
  simp only [roundRatCore]
  split_ifs with hc hM hM
  · norm_num
  · simp only
    omega
  · norm_num
  · simp only
    omega

theorem roundRat_q_lt (a den : Nat) (ha : 0 < a) (hden : 0 < den)
    (ha2 : a < 2 ^ 1000) (hd2 : den < 2 ^ 1000) :
    a * 2 ^ ((2000 : Int) - max (ratLog2 a den - 23) (-149)).toNat /
      (den * 2 ^ 2000) < 2 ^ 24 := by
  obtain ⟨hlow, hhigh, hb1, hb2⟩ := ratLog2_spec a den ha hden ha2 hd2
  set e := ratLog2 a den with hedef
  set p : Int := max (e - 23) (-149) with hpdef
  have hpe : e - 23 ≤ p := le_max_left _ _
  have hp149 : (-149 : Int) ≤ p := le_max_right _ _
  have hpub : p ≤ 1000 := by omega
  rw [Nat.div_lt_iff_lt_mul (by positivity)]
  set t := ((2000 : Int) - p).toNat with htdef
  have htI : (t : Int) = 2000 - p := by omega
  unfold pow2Le at hhigh
  simp only [decide_eq_false_iff_not, not_le] at hhigh
  set u := ((e : Int) + 1 + 2000).toNat with hudef
  have huI : (u : Int) = e + 2001 := by omega
  have step : a * 2 ^ 2000 * 2 ^ t < den * 2 ^ u * 2 ^ t :=
    (Nat.mul_lt_mul_right (by positivity)).mpr hhigh
  have hut : u + t ≤ 4024 := by omega
  have step2 : den * 2 ^ u * 2 ^ t ≤ den * 2 ^ 4024 := by
    rw [mul_assoc, ← pow_add]
    exact Nat.mul_le_mul_left _ (Nat.pow_le_pow_right (by norm_num) hut)
  have final : a * 2 ^ t * 2 ^ 2000 < 2 ^ 24 * (den * 2 ^ 2000) * 2 ^ 2000 := by
    have e1 : a * 2 ^ t * 2 ^ 2000 = a * 2 ^ 2000 * 2 ^ t := by ring
    have e2 : 2 ^ 24 * (den * 2 ^ 2000) * 2 ^ 2000 = den * 2 ^ 4024 := by
      have e3 : (2 : Nat) ^ 24 * 2 ^ 2000 * 2 ^ 2000 = 2 ^ 4024 := by
        rw [← pow_add, ← pow_add]
      calc 2 ^ 24 * (den * 2 ^ 2000) * 2 ^ 2000 = den * (2 ^ 24 * 2 ^ 2000 * 2 ^ 2000) := by
            ring
      _ = den * 2 ^ 4024 := by rw [e3]
    rw [e1, e2]
    exact lt_of_lt_of_le step step2
  exact Nat.lt_of_mul_lt_mul_right final

theorem isNaN_eq_false_of_exp (x : Nat) (h : x / 2 ^ 23 % 256 ≠ 255) : isNaN x = false := by
  unfold isNaN expF fracF
  simp only [Bool.and_eq_false_imp, beq_iff_eq, bne_eq_false_iff_eq]
  intro hc
  omega

theorem isNaN_eq_false_of_frac (x : Nat) (h : x % 2 ^ 23 = 0) : isNaN x = false := by
  unfold isNaN expF fracF
  simp only [Bool.and_eq_false_imp, beq_iff_eq, bne_eq_false_iff_eq]
  intro hc
  omega

theorem roundRat_shape (s : Bool) (a den : Nat) (ha : 0 < a) (hden : 0 < den)
    (ha2 : a < 2 ^ 1000) (hd2 : den < 2 ^ 1000) :
    isNaN (roundRat s a den) = false ∧ roundRat s a den < 2 ^ 32 := by
  have hq := roundRat_q_lt a den ha hden ha2 hd2
  have hM := roundRatCore_M_lt a den hq
  unfold roundRat encodeF32
  cases s <;> simp only [Bool.false_eq_true, if_false, if_true]
  · split_ifs with h1 h2
    · exact ⟨isNaN_eq_false_of_exp _ (by omega), by omega⟩
    · exact ⟨isNaN_eq_false_of_frac _ (by omega), by omega⟩
    · refine ⟨isNaN_eq_false_of_exp _ ?_, ?_⟩
      · have hE : ((roundRatCore a den).2 + 150).toNat ≤ 254 := by omega
        omega
      · have hE : ((roundRatCore a den).2 + 150).toNat ≤ 254 := by omega
        omega
  · split_ifs with h1 h2
    · exact ⟨isNaN_eq_false_of_exp _ (by omega), by omega⟩
    · exact ⟨isNaN_eq_false_of_frac _ (by omega), by omega⟩
    · refine ⟨isNaN_eq_false_of_exp _ ?_, ?_⟩
      · have hE : ((roundRatCore a den).2 + 150).toNat ≤ 254 := by omega
        omega
      · have hE : ((roundRatCore a den).2 + 150).toNat ≤ 254 := by omega
        omega

/-! ## Lemmas about multiplication needed for the pow recurrence -/

theorem isNaN_infWith : ∀ s : Bool, isNaN (infWith s) = false := by decide

theorem isNaN_zeroWith : ∀ s : Bool, isNaN (zeroWith s) = false := by decide

theorem isZero_of_isInf (x : Nat) (h : isInf x = true) : isZero x = false := by
  unfold isInf expF fracF at h
  unfold isZero
  simp only [Bool.and_eq_true, beq_iff_eq] at h
  simp only [Bool.or_eq_false_iff, beq_eq_false_iff_ne]
  omega

theorem sig149_pos (x : Nat) (h32 : x < 2 ^ 32) (hz : isZero x = false) :
    0 < sig149 x := by
  unfold isZero at hz
  simp only [Bool.or_eq_false_iff, beq_eq_false_iff_ne] at hz
  unfold sig149 expF fracF
  split_ifs with hE
  · omega
  · positivity

theorem sig149_lt (x : Nat) (_h : x < 2 ^ 32) : sig149 x < 2 ^ 278 := by
  unfold sig149 expF fracF
  split_ifs with hE
  · omega
  · calc (2 ^ 23 + x % 2 ^ 23) * 2 ^ (x / 2 ^ 23 % 256 - 1)
        ≤ (2 ^ 23 + x % 2 ^ 23) * 2 ^ 254 :=
          Nat.mul_le_mul_left _ (Nat.pow_le_pow_right (by norm_num) (by omega))
    _ < 2 ^ 24 * 2 ^ 254 := (Nat.mul_lt_mul_right (by positivity)).mpr (by omega)
    _ = 2 ^ 278 := by rw [← pow_add]
  
theorem f32_recompose (x : Nat) (h32 : x < 2 ^ 32) :
    (if signB x then 2 ^ 31 else 0) + expF x * 2 ^ 23 + fracF x = x := by
  unfold signB expF fracF
  by_cases hs : x / 2 ^ 31 % 2 = 1
  · rw [hs]
    simp
    omega
  · have hz : x / 2 ^ 31 % 2 = 0 := by omega
    rw [hz]
    simp
    omega

theorem fmul_finite_eq (x y : Nat) (hnx : isNaN x = false) (hny : isNaN y = false)
    (hix : isInf x = false) (hiy : isInf y = false)
    (hzx : isZero x = false) (hzy : isZero y = false) :
    fmul x y =
      roundRat (signB x != signB y) (sig149 x * sig149 y) (2 ^ 149 * 2 ^ 149) := by
  unfold fmul
  simp [hnx, hny, hix, hiy, hzx, hzy]

theorem fmul_comm (x y : Nat) (hnx : isNaN x = false) (hny : isNaN y = false) :
    fmul x y = fmul y x := by
  have hbne : ∀ a b : Bool, (a != b) = (b != a) := by decide
  unfold fmul
  simp only [hnx, hny, Bool.false_eq_true, if_false]
  by_cases hix : isInf x <;> by_cases hiy : isInf y
  · simp [hix, hiy, isZero_of_isInf x hix, isZero_of_isInf y hiy,
      hbne (signB x) (signB y)]
  · simp [hix, hiy, hbne (signB x) (signB y), Bool.or_comm, Nat.mul_comm]
  · simp [hix, hiy, hbne (signB x) (signB y), Bool.or_comm, Nat.mul_comm]
  · simp [hix, hiy, hbne (signB x) (signB y), Bool.or_comm, Nat.mul_comm]

theorem fmul_not_nan (x y : Nat) (hx32 : x < 2 ^ 32) (hy32 : y < 2 ^ 32)
    (hnx : isNaN x = false) (hny : isNaN y = false)
    (h1 : isInf x = true → isZero y = false)
    (h2 : isZero x = true → isInf y = false) :
    isNaN (fmul x y) = false := by
  unfold fmul
  simp only [hnx, hny, Bool.false_eq_true, if_false]
  by_cases hix : isInf x
  · simp [hix, h1 hix, isNaN_infWith]
  · by_cases hiy : isInf y
    · by_cases hzx : isZero x
      · exact absurd hiy (by simp [h2 hzx])
      · simp [hix, hiy, hzx, isNaN_infWith]
    · by_cases hz : (isZero x || isZero y) = true
      · simp [hix, hiy, hz, isNaN_zeroWith]
      · simp only [Bool.or_eq_true] at hz
        push_neg at hz
        have hzx : isZero x = false := by
          cases hc : isZero x
          · rfl
          · exact absurd hc hz.1
        have hzy : isZero y = false := by
          cases hc : isZero y
          · rfl
          · exact absurd hc hz.2
        simp only [hix, hiy, hzx, hzy, Bool.false_eq_true, if_false, Bool.or_self]
        have hapos : 0 < sig149 x * sig149 y :=
          Nat.mul_pos (sig149_pos x hx32 hzx) (sig149_pos y hy32 hzy)
        have habd : sig149 x * sig149 y < 2 ^ 1000 := by
          calc sig149 x * sig149 y < 2 ^ 278 * 2 ^ 278 :=
                Nat.mul_lt_mul_of_lt_of_lt (sig149_lt x hx32) (sig149_lt y hy32)
          _ = 2 ^ 556 := by rw [← pow_add]
          _ < 2 ^ 1000 := Nat.pow_lt_pow_right (by norm_num) (by norm_num)
        have hdbd : (2 : Nat) ^ 149 * 2 ^ 149 < 2 ^ 1000 := by
          calc (2 : Nat) ^ 149 * 2 ^ 149 = 2 ^ 298 := by rw [← pow_add]
          _ < 2 ^ 1000 := Nat.pow_lt_pow_right (by norm_num) (by norm_num)
        exact (roundRat_shape _ _ _ hapos (by positivity) habd hdbd).1

theorem fmul_one (x : Nat) (h32 : x < 2 ^ 32) (hn : isNaN x = false) :
    fmul 0x3F800000 x = x := by
  have hn1 : isNaN 0x3F800000 = false := by decide
  have hi1 : isInf 0x3F800000 = false := by decide
  have hz1 : isZero 0x3F800000 = false := by decide
  have hs1 : signB 0x3F800000 = false := by decide
  have hbne : (false != signB x) = signB x := by cases h : signB x <;> rfl
  by_cases hix : isInf x
  · have hstep : fmul 0x3F800000 x = infWith (signB x) := by
      unfold fmul
      simp [hn1, hn, hi1, hix, hz1, hs1, hbne]
    rw [hstep]
    have hfields : expF x = 255 ∧ fracF x = 0 := by
      unfold isInf at hix
      simpa using hix
    unfold expF fracF at hfields
    unfold infWith signB
    by_cases hs : x / 2 ^ 31 % 2 = 1
    · rw [hs]
      simp
      omega
    · have h0 : x / 2 ^ 31 % 2 = 0 := by omega
      rw [h0]
      simp
      omega
  · have hixf : isInf x = false := by simpa using hix
    by_cases hzx : isZero x
    · have hx : x = 0 ∨ x = 0x80000000 := by
        unfold isZero at hzx
        simpa using hzx
      rcases hx with hx | hx <;> subst hx <;> decide
    · have hzxf : isZero x = false := by simpa using hzx
      have hE255 : expF x ≠ 255 := by
        unfold isNaN at hn
        unfold isInf at hixf
        simp only [Bool.and_eq_false_imp, beq_iff_eq, bne_eq_false_iff_eq] at hn
        simp only [Bool.and_eq_false_imp, beq_iff_eq, beq_eq_false_iff_ne] at hixf
        intro hc
        exact hixf hc (hn hc)
      rw [fmul_finite_eq _ _ hn1 hn hi1 hixf hz1 hzxf, hs1, hbne]
      have hsig1 : sig149 0x3F800000 = 2 ^ 149 := by decide
      rw [hsig1]
      by_cases hE0 : expF x = 0
      · have hsx : sig149 x = fracF x := by
          unfold sig149
          rw [if_pos hE0]
        rw [hsx, Nat.mul_comm (2 ^ 149) (fracF x)]
        have hden : (2 : Nat) ^ 149 * 2 ^ 149 = 2 ^ (149 + 149) := by rw [← pow_add]
        rw [hden]
        have hfp : 0 < fracF x := by
          have := sig149_pos x h32 hzxf
          rwa [hsx] at this
        rw [roundRat_exact_subnormal (signB x) (fracF x) 149 hfp
          (by unfold fracF; omega) (by norm_num)]
        have hrec := f32_recompose x h32
        rw [hE0] at hrec
        simpa using hrec
      · have hsx : sig149 x = (2 ^ 23 + fracF x) * 2 ^ (expF x - 1) := by
          unfold sig149
          rw [if_neg hE0]
        rw [hsx]
        have ha : 2 ^ 149 * ((2 ^ 23 + fracF x) * 2 ^ (expF x - 1)) =
            (2 ^ 23 + fracF x) * 2 ^ (expF x + 148) := by
          rw [mul_comm, mul_assoc, ← pow_add,
            show expF x - 1 + 149 = expF x + 148 from by omega]
        rw [ha]
        have hden : (2 : Nat) ^ 149 * 2 ^ 149 = 2 ^ 298 := by rw [← pow_add]
        rw [hden]
        have hEle : expF x ≤ 255 := by
          unfold expF
          omega
        rw [roundRat_exact_normal (signB x) (2 ^ 23 + fracF x) (expF x + 148) 298
          (by omega) (by unfold fracF; omega) (by omega) (by norm_num)
          (by omega) (by omega)]
        rw [show expF x + 148 + 150 - 298 = expF x from by omega,
          show 2 ^ 23 + fracF x - 2 ^ 23 = fracF x from by omega]
        exact f32_recompose x h32

theorem isInf_of_isZero (x : Nat) (h : isZero x = true) : isInf x = false := by
  unfold isZero at h
  simp only [Bool.or_eq_true, beq_iff_eq] at h
  rcases h with h | h <;> subst h <;> decide

theorem fmul_lt32 (x y : Nat) (hx32 : x < 2 ^ 32) (hy32 : y < 2 ^ 32) :
    fmul x y < 2 ^ 32 := by
  have hiW : ∀ s : Bool, infWith s < 2 ^ 32 := by decide
  have hzW : ∀ s : Bool, zeroWith s < 2 ^ 32 := by decide
  unfold fmul
  by_cases hnx : isNaN x
  · simp only [hnx, if_true]
    exact Nat.or_lt_two_pow hx32 (by norm_num)
  · have hnxf : isNaN x = false := by simpa using hnx
    simp only [hnxf, Bool.false_eq_true, if_false]
    by_cases hny : isNaN y
    · simp only [hny, if_true]
      exact Nat.or_lt_two_pow hy32 (by norm_num)
    · have hnyf : isNaN y = false := by simpa using hny
      simp only [hnyf, Bool.false_eq_true, if_false]
      by_cases hix : isInf x
      · simp only [hix, if_true]
        split_ifs
        · decide
        · exact hiW _
      · have hixf : isInf x = false := by simpa using hix
        simp only [hixf, Bool.false_eq_true, if_false]
        by_cases hiy : isInf y
        · simp only [hiy, if_true]
          split_ifs
          · decide
          · exact hiW _
        · have hiyf : isInf y = false := by simpa using hiy
          simp only [hiyf, Bool.false_eq_true, if_false]
          by_cases hz : (isZero x || isZero y) = true
          · simp only [hz, if_true]
            exact hzW _
          · have hzf : (isZero x || isZero y) = false := by simpa using hz
            simp only [hzf, Bool.false_eq_true, if_false]
            simp only [Bool.or_eq_false_iff] at hzf
            have hapos : 0 < sig149 x * sig149 y :=
              Nat.mul_pos (sig149_pos x hx32 hzf.1) (sig149_pos y hy32 hzf.2)
            have habd : sig149 x * sig149 y < 2 ^ 1000 := by
              calc sig149 x * sig149 y < 2 ^ 278 * 2 ^ 278 :=
                    Nat.mul_lt_mul_of_lt_of_lt (sig149_lt x hx32) (sig149_lt y hy32)
              _ = 2 ^ 556 := by rw [← pow_add]
              _ < 2 ^ 1000 := Nat.pow_lt_pow_right (by norm_num) (by norm_num)
            have hdbd : (2 : Nat) ^ 149 * 2 ^ 149 < 2 ^ 1000 := by
              calc (2 : Nat) ^ 149 * 2 ^ 149 = 2 ^ 298 := by rw [← pow_add]
              _ < 2 ^ 1000 := Nat.pow_lt_pow_right (by norm_num) (by norm_num)
            exact (roundRat_shape _ _ _ hapos (by positivity) habd hdbd).2

theorem fmul_self_of_inf (x : Nat) (hn : isNaN x = false) (hix : isInf x = true) :
    fmul x x = 0x7F800000 := by
  unfold fmul
  simp [hn, hix, isZero_of_isInf x hix, infWith]

theorem fmul_self_of_zero (x : Nat) (hz : isZero x = true) : fmul x x = 0 := by
  unfold isZero at hz
  simp only [Bool.or_eq_true, beq_iff_eq] at hz
  rcases hz with h | h <;> subst h <;> decide

theorem fmul_self_not_nan (x : Nat) (h32 : x < 2 ^ 32) (hn : isNaN x = false) :
    isNaN (fmul x x) = false :=
  fmul_not_nan x x h32 h32 hn hn (fun h => isZero_of_isInf x h)
    (fun h => isInf_of_isZero x h)

theorem fmul_cube_not_nan (x : Nat) (h32 : x < 2 ^ 32) (hn : isNaN x = false) :
    isNaN (fmul x (fmul x x)) = false :=
  fmul_not_nan x (fmul x x) h32 (fmul_lt32 x x h32 h32) hn (fmul_self_not_nan x h32 hn)
    (fun hinf => by rw [fmul_self_of_inf x hn hinf]; decide)
    (fun hz => by rw [fmul_self_of_zero x hz]; decide)

theorem vmul_one_eq (w : Vec4f)
    (b0 : w.x0 < 2 ^ 32) (b1 : w.x1 < 2 ^ 32) (b2 : w.x2 < 2 ^ 32) (b3 : w.x3 < 2 ^ 32)
    (n0 : isNaN w.x0 = false) (n1 : isNaN w.x1 = false)
    (n2 : isNaN w.x2 = false) (n3 : isNaN w.x3 = false) :
    Vec4f.vmul (Vec4f.fromScalar 0x3F800000) w = w := by
  cases w with
  | mk a b c d =>
    simp only [Vec4f.vmul, Vec4f.map2, Vec4f.fromScalar, Vec4f.mk.injEq]
    exact ⟨fmul_one a b0 n0, fmul_one b b1 n1, fmul_one c b2 n2, fmul_one d b3 n3⟩

/-! ## C7: the pow recurrence -/

/-- C7 counterexample: at `c = 0x3FE1C35E` (about 1.76374) and `n = 3`,
`pow(4)` squares the square while `pow(3) * v` multiplies three times, and
the two rounding orders differ in the last bit: the lanes disagree, so the
recurrence fails. -/
theorem c7_counterexample :
    Vec4f.vecEq (Vec4f.pow (Vec4f.fromScalar 0x3FE1C35E) (3 + 1))
      (Vec4f.vmul (Vec4f.pow (Vec4f.fromScalar 0x3FE1C35E) 3)
        (Vec4f.fromScalar 0x3FE1C35E)) = false := by
  decide

/-- C7 as amended: the recurrence `pow(n+1) == pow(n) * v` holds for
`n ∈ {0, 1, 2}` on every vector of well-formed non-NaN lanes (for `n = 0`
both sides are the same multiplication; for `n = 1, 2` they differ only by
exact multiplications by `1.0` and one commutation); it fails for some `v`
already at `n = 3`, where the two sides round in different orders, and a NaN
lane falsifies it for every `n`. -/
theorem c7_pow_recurrence (v : Vec4f) (n : Int)
    (b0 : v.x0 < 2 ^ 32) (b1 : v.x1 < 2 ^ 32) (b2 : v.x2 < 2 ^ 32) (b3 : v.x3 < 2 ^ 32)
    (n0 : isNaN v.x0 = false) (n1 : isNaN v.x1 = false)
    (n2 : isNaN v.x2 = false) (n3 : isNaN v.x3 = false)
    (hn : n = 0 ∨ n = 1 ∨ n = 2) :
    Vec4f.vecEq (Vec4f.pow v (n + 1)) (Vec4f.vmul (Vec4f.pow v n) v) = true := by
  have hone := vmul_one_eq v b0 b1 b2 b3 n0 n1 n2 n3
  have hvv32 : ∀ a : Nat, a < 2 ^ 32 → fmul a a < 2 ^ 32 := fun a h => fmul_lt32 a a h h
  have hvvsq := vmul_one_eq (Vec4f.vmul v v)
    (fmul_lt32 _ _ b0 b0) (fmul_lt32 _ _ b1 b1) (fmul_lt32 _ _ b2 b2) (fmul_lt32 _ _ b3 b3)
    (fmul_self_not_nan _ b0 n0) (fmul_self_not_nan _ b1 n1)
    (fmul_self_not_nan _ b2 n2) (fmul_self_not_nan _ b3 n3)
  rcases hn with rfl | rfl | rfl
  · have e1 : Vec4f.pow v (0 + 1) = Vec4f.vmul (Vec4f.fromScalar 0x3F800000) v := rfl
    have e2 : Vec4f.pow v 0 = Vec4f.fromScalar 0x3F800000 := rfl
    rw [e1, e2, hone, Vec4f.vecEq_self]
    simp [n0, n1, n2, n3]
  · have e1 : Vec4f.pow v (1 + 1) =
        Vec4f.vmul (Vec4f.fromScalar 0x3F800000) (Vec4f.vmul v v) := rfl
    have e2 : Vec4f.pow v 1 = Vec4f.vmul (Vec4f.fromScalar 0x3F800000) v := rfl
    rw [e1, e2, hone, hvvsq, Vec4f.vecEq_self]
    simp [Vec4f.vmul, Vec4f.map2, fmul_self_not_nan _ b0 n0, fmul_self_not_nan _ b1 n1,
      fmul_self_not_nan _ b2 n2, fmul_self_not_nan _ b3 n3]
  · have e1 : Vec4f.pow v (2 + 1) =
        Vec4f.vmul (Vec4f.vmul (Vec4f.fromScalar 0x3F800000) v) (Vec4f.vmul v v) := rfl
    have e2 : Vec4f.pow v 2 =
        Vec4f.vmul (Vec4f.fromScalar 0x3F800000) (Vec4f.vmul v v) := rfl
    rw [e1, e2, hone, hvvsq]
    have ecomm : Vec4f.vmul (Vec4f.vmul v v) v = Vec4f.vmul v (Vec4f.vmul v v) := by
      cases v with
      | mk a b c d =>
        simp only [Vec4f.vmul, Vec4f.map2, Vec4f.mk.injEq]
        exact ⟨fmul_comm _ _ (fmul_self_not_nan _ b0 n0) n0,
          fmul_comm _ _ (fmul_self_not_nan _ b1 n1) n1,
          fmul_comm _ _ (fmul_self_not_nan _ b2 n2) n2,
          fmul_comm _ _ (fmul_self_not_nan _ b3 n3) n3⟩
    rw [ecomm, Vec4f.vecEq_self]
    simp [Vec4f.vmul, Vec4f.map2, fmul_cube_not_nan _ b0 n0, fmul_cube_not_nan _ b1 n1,
      fmul_cube_not_nan _ b2 n2, fmul_cube_not_nan _ b3 n3]

/-- C7 applied at `v = broadcast(2.0)` and `n = 1`. -/
theorem c7_witness :
    Vec4f.vecEq (Vec4f.pow (Vec4f.fromScalar 0x40000000) (1 + 1))
      (Vec4f.vmul (Vec4f.pow (Vec4f.fromScalar 0x40000000) 1)
        (Vec4f.fromScalar 0x40000000)) = true :=
  c7_pow_recurrence (Vec4f.fromScalar 0x40000000) 1
    (by decide) (by decide) (by decide) (by decide)
    (by decide) (by decide) (by decide) (by decide)
    (Or.inr (Or.inl rfl))
